import Mathlib

/-!
Verification of the PyroItaly transport core: the constructor-ID registry
(`pyroitaly/raw/all.py`), the TL binary codec (serialize/parse of scalars,
byte strings and text strings) and the connection pool.

The registry table is embedded directly from `src/pyroitaly/raw/all.py`.
The codec and pool implementations are not part of the provided sources
(only their tests reference them), so their definitions are modelled from
the specification and marked as such in their doc comments.
-/

namespace PyroItaly

/-- The `objects` dictionary literal of `src/pyroitaly/raw/all.py`,
as the ordered list of key/value registrations written in the source.
Python dictionary literals apply entries left to right, so a later entry
with the same key overwrites an earlier one. -/
def objectsEntries : List (Nat × String) :=
  [ (0xbc799737, "pyroitaly.raw.core.BoolFalse"),
    (0x997275b5, "pyroitaly.raw.core.BoolTrue"),
    (0x1cb5c415, "pyroitaly.raw.core.Vector"),
    (0x73f1f8dc, "pyroitaly.raw.core.MsgContainer"),
    (0xae500895, "pyroitaly.raw.core.FutureSalts"),
    (0x0949d9dc, "pyroitaly.raw.core.FutureSalt"),
    (0x3072cfa1, "pyroitaly.raw.core.GzipPacked"),
    (0x5bb8e511, "pyroitaly.raw.core.Message"),
    (0x2134579, "pyroitaly.raw.types.Null"),
    (0x3fedd339, "pyroitaly.raw.types.True"),
    (0xbc799737, "pyroitaly.raw.types.BoolFalse"),
    (0x997275b5, "pyroitaly.raw.types.BoolTrue"),
    (0x7abe77ec, "pyroitaly.raw.functions.Ping"),
    (0x78d4b1fb, "pyroitaly.raw.functions.GetConfig") ]

/-- Registry lookup: the resulting `objects` dict of `all.py` as a total
function from constructor ID to descriptor-or-absent.  The fold realizes
Python's last-write-wins dictionary construction, and absent keys give
`none` (the explicit miss of `dict.get`). -/
def objects (id : Nat) : Option String :=
  objectsEntries.foldl (fun acc p => if p.1 = id then some p.2 else acc) none

/-- Modelled from the spec: `TLParser.serialize_bytes` is absent from the
provided sources (only the tests call it).  Per §3/§4.2: short form
(length < 254) is one length byte, the raw bytes, then zero padding so the
total `1 + length + padding` is a multiple of 4; long form (length ≥ 254)
is a marker byte 254, a 3-byte little-endian length, the raw bytes, then
zero padding so the total `4 + length + padding` is a multiple of 4. -/
def serialize_bytes (data : List Nat) : List Nat :=
  let n := data.length
  if n < 254 then
    n :: (data ++ List.replicate ((4 - (1 + n) % 4) % 4) 0)
  else
    254 :: n % 256 :: n / 256 % 256 :: n / 65536 % 256 ::
      (data ++ List.replicate ((4 - n % 4) % 4) 0)

/-- Modelled from the spec: `TLParser.parse_bytes` is absent from the
provided sources.  It reads the length header at `offset`, computes the
declared length and padding from the header alone, returns the payload and
the offset advanced past the computed padded total, and reports an
explicit miss on a truncated or malformed buffer. -/
def parse_bytes (buf : List Nat) (offset : Nat) : Option (List Nat × Nat) :=
  match buf.drop offset with
  | [] => none
  | b0 :: rest =>
    if b0 < 254 then
      let pad := (4 - (1 + b0) % 4) % 4
      if rest.length < b0 + pad then none
      else some (rest.take b0, offset + 1 + b0 + pad)
    else if b0 = 254 then
      match rest with
      | b1 :: b2 :: b3 :: rest2 =>
        let n := b1 + 256 * b2 + 65536 * b3
        let pad := (4 - n % 4) % 4
        if rest2.length < n + pad then none
        else some (rest2.take n, offset + 4 + n + pad)
      | _ => none
    else none

/-- Standard UTF-8 encoding of one Unicode code point (1 to 4 bytes). -/
def utf8EncodeChar (c : Nat) : List Nat :=
  if c < 0x80 then [c]
  else if c < 0x800 then [0xc0 + c / 64, 0x80 + c % 64]
  else if c < 0x10000 then
    [0xe0 + c / 4096, 0x80 + c / 64 % 64, 0x80 + c % 64]
  else
    [0xf0 + c / 262144, 0x80 + c / 4096 % 64, 0x80 + c / 64 % 64,
     0x80 + c % 64]

/-- UTF-8 encoding of a text, viewed as its list of code points. -/
def utf8Encode (s : List Nat) : List Nat :=
  (s.map utf8EncodeChar).flatten

/-- Reads one UTF-8-encoded code point from the front of a byte list:
returns the code point and the remaining bytes, or an explicit miss on a
bad leading byte or a bad continuation byte. -/
def utf8DecodeChar (l : List Nat) : Option (Nat × List Nat) :=
  l.head?.bind fun b0 =>
    if b0 < 0x80 then some (b0, l.drop 1)
    else if b0 < 0xc0 then none
    else if b0 < 0xe0 then
      l[1]?.bind fun b1 =>
        if 0x80 ≤ b1 ∧ b1 < 0xc0 then
          some ((b0 - 0xc0) * 64 + (b1 - 0x80), l.drop 2)
        else none
    else if b0 < 0xf0 then
      l[1]?.bind fun b1 => l[2]?.bind fun b2 =>
        if 0x80 ≤ b1 ∧ b1 < 0xc0 ∧ 0x80 ≤ b2 ∧ b2 < 0xc0 then
          some ((b0 - 0xe0) * 4096 + (b1 - 0x80) * 64 + (b2 - 0x80),
            l.drop 3)
        else none
    else if b0 < 0xf8 then
      l[1]?.bind fun b1 => l[2]?.bind fun b2 => l[3]?.bind fun b3 =>
        if 0x80 ≤ b1 ∧ b1 < 0xc0 ∧ 0x80 ≤ b2 ∧ b2 < 0xc0 ∧
            0x80 ≤ b3 ∧ b3 < 0xc0 then
          some ((b0 - 0xf0) * 262144 + (b1 - 0x80) * 4096 +
            (b2 - 0x80) * 64 + (b3 - 0x80), l.drop 4)
        else none
    else none

/-- Fuel-bounded loop decoding a whole byte list as consecutive UTF-8
code points; one unit of fuel per decoded code point. -/
def utf8DecodeLoop : Nat → List Nat → Option (List Nat)
  | _, [] => some []
  | 0, _ :: _ => none
  | fuel + 1, b :: t =>
    match utf8DecodeChar (b :: t) with
    | some (c, rest) => (utf8DecodeLoop fuel rest).map (c :: ·)
    | none => none

/-- UTF-8 decoding of a byte list back to code points, with an explicit
miss on malformed input.  Each decoded code point consumes at least one
byte, so the list length is enough fuel. -/
def utf8Decode (l : List Nat) : Option (List Nat) :=
  utf8DecodeLoop l.length l

/-- Modelled from the spec: `TLParser.serialize_string` is absent from the
provided sources; it is the UTF-8 wrap around `serialize_bytes`. -/
def serialize_string (s : List Nat) : List Nat :=
  serialize_bytes (utf8Encode s)

/-- Modelled from the spec: `TLParser.parse_string` is absent from the
provided sources; it is the UTF-8 unwrap around `parse_bytes`, reporting
an explicit miss when the payload is not valid UTF-8. -/
def parse_string (buf : List Nat) (offset : Nat) : Option (List Nat × Nat) :=
  match parse_bytes buf offset with
  | none => none
  | some (payload, off) =>
    match utf8Decode payload with
    | none => none
    | some text => some (text, off)

/-- Codec error taxonomy of §7, restricted to the cases the claims use. -/
inductive CodecError where
  | truncatedInput
  | invalidEncoding
deriving DecidableEq

/-- Modelled from the spec: `TLParser.serialize_int` is absent from the
provided sources; 4 little-endian two's-complement bytes. -/
def serialize_int (v : Int) : List Nat :=
  let u := (v % 4294967296).toNat
  [u % 256, u / 256 % 256, u / 65536 % 256, u / 16777216 % 256]

/-- Modelled from the spec: `TLParser.parse_int` is absent from the
provided sources; reads 4 little-endian two's-complement bytes at the
cursor and fails with `truncatedInput` when fewer than 4 are available. -/
def parse_int (buf : List Nat) : Except CodecError Int :=
  match buf with
  | b0 :: b1 :: b2 :: b3 :: _ =>
    let u : Nat := b0 + 256 * b1 + 65536 * b2 + 16777216 * b3
    .ok (if u < 2147483648 then (u : Int) else (u : Int) - 4294967296)
  | _ => .error CodecError.truncatedInput

/-- A datacenter endpoint: host address and port, as the tests'
MockDataCenter carries. -/
structure DataCenter where
  ip : String
  port : Nat
deriving DecidableEq

/-- A pool bookkeeping key: endpoint identity plus transport mode. -/
abbrev PoolKey := DataCenter × String

/-- Result of a `get_connection` call: a connection (identified by its
id), a suspension awaiting capacity, or a failure because the pool is
stopped. -/
inductive GetOutcome where
  | conn (c : Nat)
  | suspended
  | poolClosed
deriving DecidableEq

/-- Modelled from the spec: the `ConnectionPool` state (§3/§4.3) is
absent from the provided sources (only the tests use it).  Per endpoint
key it holds the idle connections and the issued (checked-out)
connections, each as a list of connection ids; `nextId` numbers the
connections ever established, so every live id is below it. -/
structure PoolState where
  running : Bool
  maxConnections : Nat
  nextId : Nat
  idle : PoolKey → List Nat
  issued : PoolKey → List Nat

/-- Modelled from the spec: `ConnectionPool.get_connection` (§4.3).  On a
running pool it reuses an idle connection for the key when one exists,
establishes a fresh connection when idle-plus-issued capacity allows, and
otherwise suspends the caller; on a stopped pool it fails. -/
def get_connection (k : PoolKey) (s : PoolState) : GetOutcome × PoolState :=
  if s.running then
    match s.idle k with
    | c :: restIdle =>
      (GetOutcome.conn c,
       { s with
           idle := Function.update s.idle k restIdle,
           issued := Function.update s.issued k (c :: s.issued k) })
    | [] =>
      if (s.issued k).length < s.maxConnections then
        (GetOutcome.conn s.nextId,
         { s with
             issued := Function.update s.issued k (s.nextId :: s.issued k),
             nextId := s.nextId + 1 })
      else (GetOutcome.suspended, s)
  else (GetOutcome.poolClosed, s)

/-- Modelled from the spec: `ConnectionPool.release_connection` (§4.3).
A held connection is removed from the issued collection; a healthy one
returns to the idle collection of its key for reuse, while an unhealthy
one (or one released into a stopped pool) is closed and dropped. -/
def release_connection (k : PoolKey) (c : Nat) (healthy : Bool)
    (s : PoolState) : PoolState :=
  if c ∈ s.issued k then
    if healthy && s.running then
      { s with
          issued := Function.update s.issued k ((s.issued k).erase c),
          idle := Function.update s.idle k (c :: s.idle k) }
    else
      { s with
          issued := Function.update s.issued k ((s.issued k).erase c) }
  else s

/-- Modelled from the spec: `ConnectionPool.stop` (§4.3): the pool stops
running and every idle connection is closed; issued connections are
closed later, as they are released. -/
def stop (s : PoolState) : PoolState :=
  { s with running := false, idle := fun _ => [] }

/-- The pool safety invariant of §3: per key, no connection is both idle
and issued (the ids across the two collections are duplicate-free), every
live id is below `nextId`, and idle plus issued connections never exceed
`max_connections`. -/
def PoolInv (s : PoolState) : Prop :=
  ∀ k : PoolKey,
    (s.idle k ++ s.issued k).Nodup ∧
    (∀ c ∈ s.idle k ++ s.issued k, c < s.nextId) ∧
    (s.idle k).length + (s.issued k).length ≤ s.maxConnections

/-- A fresh running pool with `max` connections per key, as created by
`ConnectionPool(max_connections=max)` followed by `start()`. -/
def initialPool (max : Nat) : PoolState :=
  { running := true, maxConnections := max, nextId := 0,
    idle := fun _ => [], issued := fun _ => [] }

/-- A running pool holding exactly one issued connection (id 0) for the
tests' endpoint 127.0.0.1:8888 under the default transport mode. -/
def poolOneIssued : PoolState :=
  { running := true, maxConnections := 2, nextId := 1,
    idle := fun _ => [],
    issued := fun k2 =>
      if k2 = (⟨"127.0.0.1", 8888⟩, "tcp_abridged") then [0] else [] }

/-- A last-write-wins fold lookup returns `some` exactly on keys occurring
in the list (or when the initial accumulator already holds a value). -/
theorem foldl_lookup_eq_none {e : List (Nat × String)} {init : Option String}
    {id : Nat} :
    e.foldl (fun acc p => if p.1 = id then some p.2 else acc) init = none ↔
      init = none ∧ id ∉ e.map Prod.fst := by
  induction e generalizing init with
  | nil => simp
  | cons hd tl ih =>
    simp only [List.foldl_cons, List.map_cons, List.mem_cons, ih]
    by_cases h : hd.1 = id
    · simp [h]
    · simp only [h, if_neg h, List.mem_cons]
      constructor
      · rintro ⟨h1, h2⟩
        exact ⟨h1, fun hc => hc.elim (fun he => h he.symm) h2⟩
      · rintro ⟨h1, h2⟩
        exact ⟨h1, fun hc => h2 (Or.inr hc)⟩

/-- When a last-write-wins fold lookup returns a descriptor, that
descriptor was registered for the looked-up key (or was already in the
initial accumulator). -/
theorem foldl_lookup_mem {e : List (Nat × String)} {init : Option String}
    {id : Nat} {d : String}
    (h : e.foldl (fun acc p => if p.1 = id then some p.2 else acc) init = some d) :
    (id, d) ∈ e ∨ init = some d := by
  induction e generalizing init with
  | nil => simp_all
  | cons hd tl ih =>
    simp only [List.foldl_cons] at h
    rcases ih h with hmem | hinit
    · exact Or.inl (List.mem_cons_of_mem _ hmem)
    · by_cases hk : hd.1 = id
      · rw [if_pos hk, Option.some.injEq] at hinit
        subst hinit
        exact Or.inl (by simp [← hk])
      · simp only [if_neg hk] at hinit
        exact Or.inr hinit

end PyroItaly

/-- C10: in the `objects` table literal the keys `0xbc799737` and
`0x997275b5` each appear twice, so last-write-wins construction maps
`0xbc799737` to `"pyroitaly.raw.types.BoolFalse"` and `0x997275b5` to
`"pyroitaly.raw.types.BoolTrue"`; the table holds exactly 12 distinct
constructor IDs, all below `2^32`. -/
theorem registry_last_write_wins :
    PyroItaly.objects 0xbc799737 = some "pyroitaly.raw.types.BoolFalse" ∧
    PyroItaly.objects 0x997275b5 = some "pyroitaly.raw.types.BoolTrue" ∧
    (PyroItaly.objectsEntries.map Prod.fst).dedup.length = 12 ∧
    ∀ p ∈ PyroItaly.objectsEntries, p.1 < 2 ^ 32 := by
  refine ⟨rfl, rfl, by decide, by decide⟩

/-- C1: the claim that all distinct registrations in the table carry
distinct constructor IDs fails on the source: the dict literal registers
`0xbc799737` once as `"pyroitaly.raw.core.BoolFalse"` (entry 0) and again
as `"pyroitaly.raw.types.BoolFalse"` (entry 10), silently overwriting the
first; likewise for `0x997275b5`.  The key list is therefore not
duplicate-free. -/
theorem registry_duplicate_registration :
    PyroItaly.objectsEntries.get? 0 = some (0xbc799737, "pyroitaly.raw.core.BoolFalse") ∧
    PyroItaly.objectsEntries.get? 10 = some (0xbc799737, "pyroitaly.raw.types.BoolFalse") ∧
    PyroItaly.objectsEntries.get? 1 = some (0x997275b5, "pyroitaly.raw.core.BoolTrue") ∧
    PyroItaly.objectsEntries.get? 11 = some (0x997275b5, "pyroitaly.raw.types.BoolTrue") ∧
    ¬ (PyroItaly.objectsEntries.map Prod.fst).Nodup := by
  refine ⟨rfl, rfl, rfl, rfl, by decide⟩

/-- C2: registry lookup is total (an `Option`-valued function, never an
exception): it returns the explicit miss `none` exactly on IDs absent
from the table, and on a present ID it returns a descriptor that was
registered for that very ID. -/
theorem registry_lookup_total (id : Nat) :
    (PyroItaly.objects id = none ↔ id ∉ PyroItaly.objectsEntries.map Prod.fst) ∧
    ∀ d, PyroItaly.objects id = some d → (id, d) ∈ PyroItaly.objectsEntries := by
  constructor
  · unfold PyroItaly.objects
    rw [PyroItaly.foldl_lookup_eq_none]
    simp
  · intro d hd
    rcases PyroItaly.foldl_lookup_mem hd with h | h
    · exact h
    · simp at h

/-- Witness for C2 at the registered ID `0x1cb5c415` (Vector) and the
unregistered ID `0xdeadbeef`. -/
theorem registry_lookup_total_witness :
    PyroItaly.objects 0x1cb5c415 = some "pyroitaly.raw.core.Vector" ∧
    PyroItaly.objects 0xdeadbeef = none ∧
    (0x1cb5c415, "pyroitaly.raw.core.Vector") ∈ PyroItaly.objectsEntries := by
  refine ⟨rfl, rfl, ?_⟩
  exact (registry_lookup_total 0x1cb5c415).2 "pyroitaly.raw.core.Vector" rfl

/-- C4: the encoding of every byte sequence has length a multiple of 4,
and the empty byte sequence encodes (short form) as one zero length byte
followed by three zero padding bytes. -/
theorem serialize_bytes_padding :
    (∀ b : List Nat, (PyroItaly.serialize_bytes b).length % 4 = 0) ∧
    PyroItaly.serialize_bytes [] = [0, 0, 0, 0] := by
  constructor
  · intro b
    unfold PyroItaly.serialize_bytes
    by_cases h : b.length < 254 <;> simp [h] <;> omega
  · rfl

/-- C5: form selection at the 254 boundary: a 253-byte payload encodes in
short form with first byte 253, and a 254-byte payload encodes in long
form opening with marker byte 254 followed by the 3-byte little-endian
length 254, i.e. header bytes 254, 254, 0, 0. -/
theorem serialize_bytes_form_boundary (b c : List Nat)
    (hb : b.length = 253) (hc : c.length = 254) :
    (PyroItaly.serialize_bytes b).head? = some 253 ∧
    (PyroItaly.serialize_bytes c).take 4 = [254, 254, 0, 0] := by
  constructor
  · simp [PyroItaly.serialize_bytes, hb]
  · simp [PyroItaly.serialize_bytes, hc]

/-- Witness for C5 at the all-zero payloads of lengths 253 and 254. -/
theorem serialize_bytes_form_boundary_witness :
    (List.replicate 253 0).length = 253 ∧
    (List.replicate 254 0).length = 254 ∧
    ((PyroItaly.serialize_bytes (List.replicate 253 0)).head? = some 253 ∧
     (PyroItaly.serialize_bytes (List.replicate 254 0)).take 4 =
       [254, 254, 0, 0]) :=
  ⟨by simp only [List.length_replicate], by simp only [List.length_replicate],
   serialize_bytes_form_boundary _ _ (by simp only [List.length_replicate])
     (by simp only [List.length_replicate])⟩

/-- General byte-string round trip, for every payload whose length fits
the 24-bit long-form length field. -/
theorem parse_bytes_roundtrip (b : List Nat) (hlen : b.length < 16777216) :
    PyroItaly.parse_bytes (PyroItaly.serialize_bytes b) 0 =
      some (b, (PyroItaly.serialize_bytes b).length) := by
  by_cases h : b.length < 254
  · have hser : PyroItaly.serialize_bytes b =
        b.length :: (b ++ List.replicate ((4 - (1 + b.length) % 4) % 4) 0) := by
      simp only [PyroItaly.serialize_bytes, if_pos h]
    rw [hser]
    simp only [PyroItaly.parse_bytes, List.drop_zero, if_pos h,
      List.length_append, List.length_replicate, lt_self_iff_false, if_false,
      List.take_left, List.length_cons, Option.some.injEq, Prod.mk.injEq,
      true_and]
    omega
  · have h24 : b.length < 16777216 := by omega
    have hser : PyroItaly.serialize_bytes b =
        254 :: b.length % 256 :: b.length / 256 % 256 ::
          b.length / 65536 % 256 ::
          (b ++ List.replicate ((4 - b.length % 4) % 4) 0) := by
      simp only [PyroItaly.serialize_bytes, if_neg h]
    rw [hser]
    have hn : b.length % 256 + 256 * (b.length / 256 % 256) +
        65536 * (b.length / 65536 % 256) = b.length := by omega
    simp only [PyroItaly.parse_bytes, List.drop_zero,
      if_neg (by omega : ¬ (254 : Nat) < 254), if_pos rfl, hn,
      List.length_append, List.length_replicate, lt_self_iff_false, if_false,
      List.take_left, List.length_cons, Option.some.injEq, Prod.mk.injEq,
      true_and, ite_true]
    omega

/-- C3: byte-string round trip: for payloads of length at most 10000,
parsing the serialized form at offset 0 recovers exactly the original
payload together with the offset advanced past the whole padded
encoding. -/
theorem parse_serialize_bytes (b : List Nat) (hlen : b.length ≤ 10000) :
    PyroItaly.parse_bytes (PyroItaly.serialize_bytes b) 0 =
      some (b, (PyroItaly.serialize_bytes b).length) :=
  parse_bytes_roundtrip b (by omega)

/-- Witness for C3 at the concrete payload `[80, 121]`. -/
theorem parse_serialize_bytes_witness :
    ([80, 121] : List Nat).length ≤ 10000 ∧
    PyroItaly.parse_bytes (PyroItaly.serialize_bytes [80, 121]) 0 =
      some ([80, 121], (PyroItaly.serialize_bytes [80, 121]).length) :=
  ⟨by decide, parse_serialize_bytes [80, 121] (by decide)⟩

/-- C7: 32-bit integer round trip and truncation: serializing any 32-bit
signed integer gives exactly 4 little-endian two's-complement bytes that
parse back to the same value, and parsing any buffer of fewer than 4
bytes reports `truncatedInput` instead of a partial value. -/
theorem parse_serialize_int (v : Int) (buf : List Nat)
    (hlo : -2147483648 ≤ v) (hhi : v < 2147483648) (hbuf : buf.length < 4) :
    PyroItaly.parse_int (PyroItaly.serialize_int v) = Except.ok v ∧
    (PyroItaly.serialize_int v).length = 4 ∧
    PyroItaly.parse_int buf =
      Except.error PyroItaly.CodecError.truncatedInput := by
  refine ⟨?_, rfl, ?_⟩
  · simp only [PyroItaly.serialize_int, PyroItaly.parse_int]
    have hu : ((v % 4294967296).toNat) < 4294967296 := by omega
    set u := (v % 4294967296).toNat with hudef
    have hu2 : u % 256 + 256 * (u / 256 % 256) + 65536 * (u / 65536 % 256) +
        16777216 * (u / 16777216 % 256) = u := by omega
    rw [hu2]
    by_cases hc : u < 2147483648
    · rw [if_pos hc]
      congr 1
      omega
    · rw [if_neg hc]
      congr 1
      omega
  · match buf with
    | [] => rfl
    | [_] => rfl
    | [_, _] => rfl
    | [_, _, _] => rfl
    | _ :: _ :: _ :: _ :: _ =>
      simp only [List.length_cons] at hbuf
      exact absurd hbuf (by omega)

/-- Witness for C7 at `v = -2` and the 3-byte buffer `[1, 2, 3]`. -/
theorem parse_serialize_int_witness :
    (-2147483648 ≤ (-2 : Int) ∧ (-2 : Int) < 2147483648 ∧
      ([1, 2, 3] : List Nat).length < 4) ∧
    (PyroItaly.parse_int (PyroItaly.serialize_int (-2)) = Except.ok (-2) ∧
     (PyroItaly.serialize_int (-2)).length = 4 ∧
     PyroItaly.parse_int [1, 2, 3] =
       Except.error PyroItaly.CodecError.truncatedInput) :=
  ⟨⟨by decide, by decide, by decide⟩,
   parse_serialize_int (-2) [1, 2, 3] (by decide) (by decide) (by decide)⟩

/-- Decoding one UTF-8-encoded code point at the head of a byte stream
recovers the code point and leaves exactly the remaining stream. -/
theorem utf8DecodeChar_encodeChar (c : Nat) (rest : List Nat)
    (hc : c < 1114112) :
    PyroItaly.utf8DecodeChar (PyroItaly.utf8EncodeChar c ++ rest) =
      some (c, rest) := by
  rcases Nat.lt_or_ge c 128 with h1 | h1
  · have he : PyroItaly.utf8EncodeChar c = [c] := by
      rw [PyroItaly.utf8EncodeChar, if_pos h1]
    rw [he]
    simp [PyroItaly.utf8DecodeChar, h1]
  · rcases Nat.lt_or_ge c 2048 with h2 | h2
    · have he : PyroItaly.utf8EncodeChar c = [192 + c / 64, 128 + c % 64] := by
        rw [PyroItaly.utf8EncodeChar, if_neg (by omega), if_pos h2]
      have hA : ¬ 192 + c / 64 < 128 := by omega
      have hB : ¬ 192 + c / 64 < 192 := by omega
      have hC : 192 + c / 64 < 224 := by omega
      have hD : 128 ≤ 128 + c % 64 := by omega
      have hE : 128 + c % 64 < 192 := by omega
      have harith : (192 + c / 64 - 192) * 64 + (128 + c % 64 - 128) = c := by
        omega
      rw [he]
      simp [PyroItaly.utf8DecodeChar, hA, hB, hC, hD, hE]
      omega
    · rcases Nat.lt_or_ge c 65536 with h3 | h3
      · have he : PyroItaly.utf8EncodeChar c =
            [224 + c / 4096, 128 + c / 64 % 64, 128 + c % 64] := by
          rw [PyroItaly.utf8EncodeChar, if_neg (by omega), if_neg (by omega),
            if_pos h3]
        have hA : ¬ 224 + c / 4096 < 128 := by omega
        have hB : ¬ 224 + c / 4096 < 192 := by omega
        have hC : ¬ 224 + c / 4096 < 224 := by omega
        have hD : 224 + c / 4096 < 240 := by omega
        have hE : 128 ≤ 128 + c / 64 % 64 := by omega
        have hF : 128 + c / 64 % 64 < 192 := by omega
        have hG : 128 ≤ 128 + c % 64 := by omega
        have hH : 128 + c % 64 < 192 := by omega
        have harith : (224 + c / 4096 - 224) * 4096 +
            (128 + c / 64 % 64 - 128) * 64 + (128 + c % 64 - 128) = c := by
          omega
        rw [he]
        simp [PyroItaly.utf8DecodeChar, hA, hB, hC, hD, hE, hF, hG, hH]
        omega
      · have he : PyroItaly.utf8EncodeChar c =
            [240 + c / 262144, 128 + c / 4096 % 64, 128 + c / 64 % 64,
             128 + c % 64] := by
          rw [PyroItaly.utf8EncodeChar, if_neg (by omega), if_neg (by omega),
            if_neg (by omega)]
        have hA : ¬ 240 + c / 262144 < 128 := by omega
        have hB : ¬ 240 + c / 262144 < 192 := by omega
        have hC : ¬ 240 + c / 262144 < 224 := by omega
        have hD : ¬ 240 + c / 262144 < 240 := by omega
        have hE : 240 + c / 262144 < 248 := by omega
        have hF : 128 ≤ 128 + c / 4096 % 64 := by omega
        have hG : 128 + c / 4096 % 64 < 192 := by omega
        have hH : 128 ≤ 128 + c / 64 % 64 := by omega
        have hI : 128 + c / 64 % 64 < 192 := by omega
        have hJ : 128 ≤ 128 + c % 64 := by omega
        have hK : 128 + c % 64 < 192 := by omega
        have harith : (240 + c / 262144 - 240) * 262144 +
            (128 + c / 4096 % 64 - 128) * 4096 +
            (128 + c / 64 % 64 - 128) * 64 + (128 + c % 64 - 128) = c := by
          omega
        rw [he]
        simp [PyroItaly.utf8DecodeChar, hA, hB, hC, hD, hE, hF, hG, hH, hI,
          hJ, hK]
        omega

/-- The UTF-8 encoding of a code point is never empty. -/
theorem utf8EncodeChar_cons (c : Nat) :
    ∃ b bs, PyroItaly.utf8EncodeChar c = b :: bs := by
  unfold PyroItaly.utf8EncodeChar
  split_ifs <;> exact ⟨_, _, rfl⟩

/-- With at least one unit of fuel per code point, the fuel-bounded loop
inverts UTF-8 encoding. -/
theorem utf8DecodeLoop_encode :
    ∀ (s : List Nat) (fuel : Nat), (∀ c ∈ s, c < 1114112) →
      s.length ≤ fuel →
      PyroItaly.utf8DecodeLoop fuel (PyroItaly.utf8Encode s) = some s := by
  intro s
  induction s with
  | nil =>
    intro fuel _ _
    rw [show PyroItaly.utf8Encode [] = [] from rfl]
    cases fuel <;> rfl
  | cons c tl ih =>
    intro fuel hs hf
    have hc : c < 1114112 := hs c (List.mem_cons_self c tl)
    have htl : ∀ x ∈ tl, x < 1114112 := fun x hx =>
      hs x (List.mem_cons_of_mem _ hx)
    have henc : PyroItaly.utf8Encode (c :: tl) =
        PyroItaly.utf8EncodeChar c ++ PyroItaly.utf8Encode tl := by
      simp [PyroItaly.utf8Encode]
    obtain ⟨b, bs, hb⟩ := utf8EncodeChar_cons c
    obtain ⟨k, rfl⟩ : ∃ k, fuel = k + 1 := by
      rcases fuel with _ | k
      · simp at hf
      · exact ⟨k, rfl⟩
    have hk : tl.length ≤ k := by
      simp only [List.length_cons] at hf
      omega
    rw [henc, hb, List.cons_append, PyroItaly.utf8DecodeLoop]
    rw [← List.cons_append, ← hb, utf8DecodeChar_encodeChar c _ hc]
    show (PyroItaly.utf8DecodeLoop k (PyroItaly.utf8Encode tl)).map (c :: ·) =
      some (c :: tl)
    rw [ih k htl hk]
    rfl

/-- Each code point encodes to at least one byte, so the byte length of
an encoded text bounds the number of code points. -/
theorem length_le_utf8Encode_length (s : List Nat) :
    s.length ≤ (PyroItaly.utf8Encode s).length := by
  induction s with
  | nil => simp [PyroItaly.utf8Encode]
  | cons c tl ih =>
    obtain ⟨b, bs, hb⟩ := utf8EncodeChar_cons c
    simp only [PyroItaly.utf8Encode, List.map_cons, List.flatten_cons,
      List.length_append, List.length_cons, hb]
    simp only [PyroItaly.utf8Encode] at ih
    omega

/-- UTF-8 decoding inverts UTF-8 encoding on every list of Unicode code
points. -/
theorem utf8Decode_encode (s : List Nat) (hs : ∀ c ∈ s, c < 1114112) :
    PyroItaly.utf8Decode (PyroItaly.utf8Encode s) = some s :=
  utf8DecodeLoop_encode s _ hs (length_le_utf8Encode_length s)

/-- C6: string round trip: every valid Unicode text (code points below
`0x110000`) whose UTF-8 encoding fits the 24-bit length field parses back
from its serialized form to exactly the original text, with the offset
advanced past the whole encoding. -/
theorem parse_serialize_string (s : List Nat)
    (hs : ∀ c ∈ s, c < 1114112)
    (hlen : (PyroItaly.utf8Encode s).length < 16777216) :
    PyroItaly.parse_string (PyroItaly.serialize_string s) 0 =
      some (s, (PyroItaly.serialize_string s).length) := by
  unfold PyroItaly.parse_string PyroItaly.serialize_string
  rw [parse_bytes_roundtrip (PyroItaly.utf8Encode s) hlen]
  show (match PyroItaly.utf8Decode (PyroItaly.utf8Encode s) with
      | none => none
      | some text =>
          some (text,
            (PyroItaly.serialize_bytes (PyroItaly.utf8Encode s)).length)) =
    some (s, (PyroItaly.serialize_bytes (PyroItaly.utf8Encode s)).length)
  rw [utf8Decode_encode s hs]

/-- Witness for C6 at the two-code-point text 🇮🇹 (the regional,
indicator pair U+1F1EE U+1F1F9). -/
theorem parse_serialize_string_witness :
    PyroItaly.parse_string (PyroItaly.serialize_string [127470, 127481]) 0 =
      some ([127470, 127481],
        (PyroItaly.serialize_string [127470, 127481]).length) :=
  parse_serialize_string [127470, 127481] (by decide) (by decide)

/-- C8: releasing a still-healthy held connection and then requesting a
connection for the same endpoint and transport mode returns that very
connection (same id, i.e. identity equality) while establishing no new
connection (`nextId` unchanged). -/
theorem get_after_release (s : PyroItaly.PoolState) (k : PyroItaly.PoolKey)
    (c : Nat) (hrun : s.running = true) (hc : c ∈ s.issued k) :
    (PyroItaly.get_connection k
        (PyroItaly.release_connection k c true s)).1 =
      PyroItaly.GetOutcome.conn c ∧
    (PyroItaly.get_connection k
        (PyroItaly.release_connection k c true s)).2.nextId = s.nextId := by
  unfold PyroItaly.release_connection PyroItaly.get_connection
  rw [if_pos hc]
  simp [hrun]

/-- Witness for C8 on a running pool with one issued connection. -/
theorem get_after_release_witness :
    PyroItaly.poolOneIssued.running = true ∧
    0 ∈ PyroItaly.poolOneIssued.issued
      (⟨"127.0.0.1", 8888⟩, "tcp_abridged") ∧
    ((PyroItaly.get_connection (⟨"127.0.0.1", 8888⟩, "tcp_abridged")
        (PyroItaly.release_connection (⟨"127.0.0.1", 8888⟩, "tcp_abridged")
          0 true PyroItaly.poolOneIssued)).1 =
        PyroItaly.GetOutcome.conn 0 ∧
      (PyroItaly.get_connection (⟨"127.0.0.1", 8888⟩, "tcp_abridged")
        (PyroItaly.release_connection (⟨"127.0.0.1", 8888⟩, "tcp_abridged")
          0 true PyroItaly.poolOneIssued)).2.nextId =
        PyroItaly.poolOneIssued.nextId) := by
  have hm : 0 ∈ PyroItaly.poolOneIssued.issued
      (⟨"127.0.0.1", 8888⟩, "tcp_abridged") := by
    simp [PyroItaly.poolOneIssued]
  exact ⟨rfl, hm, get_after_release PyroItaly.poolOneIssued _ 0 rfl hm⟩


/-- `get_connection` preserves the pool safety invariant. -/
theorem poolInv_get (s : PyroItaly.PoolState) (k : PyroItaly.PoolKey)
    (hinv : PyroItaly.PoolInv s) :
    PyroItaly.PoolInv (PyroItaly.get_connection k s).2 := by
  unfold PyroItaly.get_connection
  by_cases hr : s.running = true
  · rw [if_pos hr]
    rcases hidle : s.idle k with _ | ⟨c0, rest⟩
    · by_cases hcap : (s.issued k).length < s.maxConnections
      · rw [if_pos hcap]
        intro k2
        obtain ⟨hnd, hbound, hlen⟩ := hinv k2
        rcases eq_or_ne k2 k with rfl | hk
        · rw [hidle] at hnd hbound hlen
          simp only [List.nil_append] at hnd hbound
          simp only [List.length_nil] at hlen
          refine ⟨?_, ?_, ?_⟩
          · simp only [Function.update_same, hidle, List.nil_append]
            exact List.nodup_cons.2
              ⟨fun hmem => Nat.lt_irrefl _ (hbound _ hmem), hnd⟩
          · intro x hx
            simp only [Function.update_same, hidle, List.nil_append,
              List.mem_cons] at hx
            rcases hx with rfl | hx
            · exact Nat.lt_succ_self _
            · exact Nat.lt_succ_of_lt (hbound _ hx)
          · simp only [Function.update_same, hidle, List.length_nil,
              List.length_cons]
            omega
        · refine ⟨?_, ?_, ?_⟩
          · simpa [Function.update_noteq hk] using hnd
          · intro x hx
            simp only [Function.update_noteq hk] at hx
            exact Nat.lt_succ_of_lt (hbound _ hx)
          · simpa [Function.update_noteq hk] using hlen
      · rw [if_neg hcap]
        exact hinv
    · intro k2
      obtain ⟨hnd, hbound, hlen⟩ := hinv k2
      rcases eq_or_ne k2 k with rfl | hk
      · rw [hidle] at hnd hbound hlen
        have hperm : List.Perm (rest ++ c0 :: s.issued k2)
            ((c0 :: rest) ++ s.issued k2) := List.perm_middle
        refine ⟨?_, ?_, ?_⟩
        · simp only [Function.update_same]
          exact hperm.symm.nodup (by simpa using hnd)
        · intro x hx
          simp only [Function.update_same] at hx
          exact hbound x (by simpa using hperm.subset hx)
        · simp only [Function.update_same, List.length_cons] at *
          omega
      · refine ⟨?_, ?_, ?_⟩
        · simpa [Function.update_noteq hk] using hnd
        · intro x hx
          simp only [Function.update_noteq hk] at hx
          exact hbound _ hx
        · simpa [Function.update_noteq hk] using hlen
  · rw [if_neg hr]
    exact hinv

/-- `release_connection` preserves the pool safety invariant. -/
theorem poolInv_release (s : PyroItaly.PoolState) (k : PyroItaly.PoolKey)
    (c : Nat) (healthy : Bool) (hinv : PyroItaly.PoolInv s) :
    PyroItaly.PoolInv (PyroItaly.release_connection k c healthy s) := by
  unfold PyroItaly.release_connection
  by_cases hc : c ∈ s.issued k
  · rw [if_pos hc]
    by_cases hh : (healthy && s.running) = true
    · rw [if_pos hh]
      intro k2
      obtain ⟨hnd, hbound, hlen⟩ := hinv k2
      rcases eq_or_ne k2 k with rfl | hk
      · have hp1 : List.Perm (s.issued k2) (c :: (s.issued k2).erase c) :=
          List.perm_cons_erase hc
        have hp2 : List.Perm (s.idle k2 ++ s.issued k2)
            (s.idle k2 ++ c :: (s.issued k2).erase c) :=
          hp1.append_left (s.idle k2)
        have hp3 : List.Perm (s.idle k2 ++ c :: (s.issued k2).erase c)
            (c :: (s.idle k2 ++ (s.issued k2).erase c)) := List.perm_middle
        have hp : List.Perm (s.idle k2 ++ s.issued k2)
            ((c :: s.idle k2) ++ (s.issued k2).erase c) := hp2.trans hp3
        have hel : ((s.issued k2).erase c).length + 1 = (s.issued k2).length := by
          rw [List.length_erase_of_mem hc]
          have : 0 < (s.issued k2).length := List.length_pos.2
            (List.ne_nil_of_mem hc)
          omega
        refine ⟨?_, ?_, ?_⟩
        · simp only [Function.update_same]
          exact hp.nodup hnd
        · intro x hx
          simp only [Function.update_same] at hx
          exact hbound x (hp.symm.subset hx)
        · simp only [Function.update_same, List.length_cons]
          omega
      · refine ⟨?_, ?_, ?_⟩
        · simpa [Function.update_noteq hk] using hnd
        · intro x hx
          simp only [Function.update_noteq hk] at hx
          exact hbound _ hx
        · simpa [Function.update_noteq hk] using hlen
    · rw [if_neg hh]
      intro k2
      obtain ⟨hnd, hbound, hlen⟩ := hinv k2
      rcases eq_or_ne k2 k with rfl | hk
      · have hsub : List.Sublist (s.idle k2 ++ (s.issued k2).erase c)
            (s.idle k2 ++ s.issued k2) :=
          (List.erase_sublist c (s.issued k2)).append_left (s.idle k2)
        have hel : ((s.issued k2).erase c).length + 1 = (s.issued k2).length := by
          rw [List.length_erase_of_mem hc]
          have : 0 < (s.issued k2).length := List.length_pos.2
            (List.ne_nil_of_mem hc)
          omega
        refine ⟨?_, ?_, ?_⟩
        · simp only [Function.update_same]
          exact hnd.sublist hsub
        · intro x hx
          simp only [Function.update_same] at hx
          exact hbound x (hsub.subset hx)
        · simp only [Function.update_same]
          omega
      · refine ⟨?_, ?_, ?_⟩
        · simpa [Function.update_noteq hk] using hnd
        · intro x hx
          simp only [Function.update_noteq hk] at hx
          exact hbound _ hx
        · simpa [Function.update_noteq hk] using hlen
  · rw [if_neg hc]
    exact hinv

/-- `stop` preserves the pool safety invariant. -/
theorem poolInv_stop (s : PyroItaly.PoolState)
    (hinv : PyroItaly.PoolInv s) :
    PyroItaly.PoolInv (PyroItaly.stop s) := by
  intro k2
  obtain ⟨hnd, hbound, hlen⟩ := hinv k2
  refine ⟨?_, ?_, ?_⟩
  · simpa [PyroItaly.stop] using hnd.of_append_right
  · intro x hx
    simp only [PyroItaly.stop, List.nil_append] at hx
    exact hbound x (List.mem_append_right _ hx)
  · simp only [PyroItaly.stop, List.length_nil]
    omega

/-- C9: in every reachable pool state satisfying the safety invariant —
per key, idle plus issued connection counts at most `max_connections` and
no connection both idle and issued — each pool operation
(`get_connection`, `release_connection`, `stop`) preserves the
invariant. -/
theorem pool_ops_preserve_inv (s : PyroItaly.PoolState)
    (k : PyroItaly.PoolKey) (c : Nat) (healthy : Bool)
    (hinv : PyroItaly.PoolInv s) :
    PyroItaly.PoolInv (PyroItaly.get_connection k s).2 ∧
    PyroItaly.PoolInv (PyroItaly.release_connection k c healthy s) ∧
    PyroItaly.PoolInv (PyroItaly.stop s) :=
  ⟨poolInv_get s k hinv, poolInv_release s k c healthy hinv,
   poolInv_stop s hinv⟩

/-- Witness for C9 on a freshly started pool with capacity 2. -/
theorem pool_ops_preserve_inv_witness :
    PyroItaly.PoolInv (PyroItaly.initialPool 2) ∧
    (PyroItaly.PoolInv (PyroItaly.get_connection
        (⟨"127.0.0.1", 8888⟩, "tcp_abridged") (PyroItaly.initialPool 2)).2 ∧
     PyroItaly.PoolInv (PyroItaly.release_connection
        (⟨"127.0.0.1", 8888⟩, "tcp_abridged") 0 true
        (PyroItaly.initialPool 2)) ∧
     PyroItaly.PoolInv (PyroItaly.stop (PyroItaly.initialPool 2))) := by
  have h0 : PyroItaly.PoolInv (PyroItaly.initialPool 2) := by
    intro k2
    simp [PyroItaly.PoolInv, PyroItaly.initialPool]
  exact ⟨h0, pool_ops_preserve_inv (PyroItaly.initialPool 2)
    (⟨"127.0.0.1", 8888⟩, "tcp_abridged") 0 true h0⟩
